import Mathlib

/-!
Verification development for `hicassembler/Scaffolds.py`.

The Python source is shallowly embedded below: pure fragments become Lean
functions, the mutable `Scaffolds` object becomes an explicit state record,
and Python exceptions become `Except PyError` results.  Genomic coordinates,
coverages and matrix entries are modelled as rationals (the Python floats
`1.25`, `0.75` are exactly `5/4`, `3/4`).

The class collaborators `PathGraph` (module `hicassembler.PathGraph`),
`reduce_matrix` and `iterativeCorrection` are part of the wider project but
their code is not available here; the operations `Scaffolds.py` consumes are
modelled from the specification and marked as such in their doc comments.
-/

/-- The Python exceptions that the embedded code can raise. -/
inductive PyError where
  /-- `NameError`: an undefined global name was referenced. -/
  | nameError : PyError
  /-- `AssertionError`: a failed `assert` statement. -/
  | assertionError : PyError
  /-- `HiCAssemblerException`, the project's domain exception. -/
  | hicAssemblerError : PyError
  /-- `IndexError`: indexing an empty sequence. -/
  | indexError : PyError
deriving DecidableEq, Repr

/-- One entry of `cut_intervals`: `(name, start, end, coverage)`.
The Python attribute `end` is called `stop` here (`end` is a Lean keyword). -/
structure CutInterval where
  label : String
  start : ℚ
  stop : ℚ
  coverage : ℚ
deriving DecidableEq, Repr

instance : Inhabited CutInterval := ⟨⟨"", 0, 0, 0⟩⟩

/-- The node-attribute record stored by `_init_path_graph`:
`{'name':…, 'start':…, 'end':…, 'coverage':…, 'length': end - start}`. -/
structure NodeAttr where
  name : String
  start : ℚ
  stop : ℚ
  coverage : ℚ
  length : ℚ
deriving DecidableEq, Repr

instance : Inhabited NodeAttr := ⟨⟨"", 0, 0, 0, 0⟩⟩

/-- The `PathGraph` container: an attribute bag per node plus directed edges,
each node having at most one successor and one predecessor in well-formed
states.  Node and edge lists record insertion order, which the specification
requires the container to expose for iteration. -/
structure PathGraph where
  nodes : List (Nat × NodeAttr)
  edges : List (Nat × Nat)
deriving DecidableEq, Repr

namespace PathGraph

/-- `self.contig_G.node[x]`: attribute lookup (defaulting for absent nodes). -/
def node (g : PathGraph) (u : Nat) : NodeAttr :=
  (g.nodes.lookup u).getD default

/-- Modelled from the spec: `add_node(id, attrs)` registers a node with its
attribute record, in insertion order. -/
def add_node (g : PathGraph) (u : Nat) (a : NodeAttr) : PathGraph :=
  { g with nodes := g.nodes ++ [(u, a)] }

/-- Modelled from the spec: `add_path(ordered_ids)` chains consecutive ids
with directed edges. -/
def add_path (g : PathGraph) (p : List Nat) : PathGraph :=
  { g with edges := g.edges ++ p.zip p.tail }

/-- `PathGraph.has_edge(u, v)`: a directed edge query. -/
def has_edge (g : PathGraph) (u v : Nat) : Bool :=
  (u, v) ∈ g.edges

/-- Modelled from the spec: `degree(id)` counts incident edges
(predecessor plus successor slots). -/
def degree (g : PathGraph) (u : Nat) : Nat :=
  (g.edges.filter (fun e => decide (e.1 = u ∨ e.2 = u))).length

/-- The unique successor of `u`, when present. -/
def succOf (g : PathGraph) (u : Nat) : Option Nat :=
  (g.edges.filterMap (fun e => if e.1 = u then some e.2 else none)).head?

/-- The unique predecessor of `u`, when present. -/
def predOf (g : PathGraph) (u : Nat) : Option Nat :=
  (g.edges.filterMap (fun e => if e.2 = u then some e.1 else none)).head?

/-- Forward walk along successors, bounded by fuel. -/
def walkFwd (g : PathGraph) : Nat → Nat → List Nat
  | 0, _ => []
  | fuel + 1, u =>
    u :: (match g.succOf u with
          | none => []
          | some v => walkFwd g fuel v)

/-- Backward walk along predecessors, bounded by fuel. -/
def walkBwd (g : PathGraph) : Nat → Nat → List Nat
  | 0, _ => []
  | fuel + 1, u =>
    u :: (match g.predOf u with
          | none => []
          | some v => walkBwd g fuel v)

/-- Modelled from the spec: `self.contig_G[u]` returns the full chain
(connected component) containing `u`, listed in path order.  It walks back
to the head of the chain and then forward; the fuel bound covers any chain
of the graph. -/
def pathOf (g : PathGraph) (u : Nat) : List Nat :=
  let back := g.walkBwd (g.edges.length + 1) u
  g.walkFwd (g.edges.length + 1) (back.getLastD u)

/-- Undirected neighbours of `u` in the edge list. -/
def undirNbrs (g : PathGraph) (u : Nat) : List Nat :=
  g.edges.filterMap (fun e =>
    if e.1 = u then some e.2 else if e.2 = u then some e.1 else none)

/-- One step of undirected closure. -/
def closureStep (g : PathGraph) (cur : List Nat) : List Nat :=
  (cur ++ cur.flatMap g.undirNbrs).dedup

/-- Membership test for `u`'s connected component, by bounded closure. -/
def component (g : PathGraph) (u : Nat) : List Nat :=
  Nat.rec (motive := fun _ => List Nat) [u] (fun _ acc => g.closureStep acc)
    (g.edges.length + 1)

end PathGraph

/-- The attribute record `_init_path_graph` stores for one interval. -/
def binAttr (iv : CutInterval) : NodeAttr :=
  { name := iv.label, start := iv.start, stop := iv.stop,
    coverage := iv.coverage, length := iv.stop - iv.start }

/-- The loop body of `_init_path_graph`: walks the enumerated cut intervals,
adding one node per bin and committing each run of more than one bin sharing
a label as a path.  `cp` is `contig_path`, `prev` is `prev_label`. -/
def initLoop : List (Nat × CutInterval) → PathGraph → List Nat → Option String → PathGraph
  | [], g, cp, _ => if cp.length > 1 then g.add_path cp else g
  | (idx, iv) :: rest, g, cp, prev =>
    let g1 := g.add_node idx (binAttr iv)
    let commit := prev ≠ some iv.label
    let g2 := if commit then (if cp.length > 1 then g1.add_path cp else g1) else g1
    let cp2 := if commit then [idx] else cp ++ [idx]
    initLoop rest g2 cp2 (some iv.label)

/-- `Scaffolds._init_path_graph`: builds the path graph from `cut_intervals`. -/
def init_path_graph (ci : List CutInterval) : PathGraph :=
  initLoop ci.enum ⟨[], []⟩ [] none

/-- The contact matrix: a dimension plus an entry function. -/
structure HiCMat where
  dim : Nat
  entry : Nat → Nat → ℚ

/-- The `Scaffolds` object state: the owned matrix with its `cut_intervals`,
plus the owned path graph `contig_G`. -/
structure Scaffolds where
  hic : HiCMat
  cut_intervals : List CutInterval
  contig_G : PathGraph

/-- `Scaffolds.__init__`: store the matrix and build the path graph. -/
def Scaffolds.init (m : HiCMat) (ci : List CutInterval) : Scaffolds :=
  ⟨m, ci, init_path_graph ci⟩

/-- `Scaffolds.get_all_paths`: iterate nodes in order, emitting the chain of
every node not yet seen. -/
def get_all_paths (g : PathGraph) : List (List Nat) :=
  ((g.nodes.map Prod.fst).foldl
    (fun (acc : List (List Nat) × List Nat) v =>
      if v ∈ acc.2 then acc
      else (acc.1 ++ [g.pathOf v], acc.2 ++ g.pathOf v))
    ([], [])).1

/-- The summed `length` attribute over one path's nodes. -/
def pathLength (g : PathGraph) (p : List Nat) : ℚ :=
  (p.map (fun x => (g.node x).length)).sum

/-- `Scaffolds.get_paths_length`: the per-path summed lengths. -/
def Scaffolds.get_paths_length (s : Scaffolds) : List ℚ :=
  (get_all_paths s.contig_G).map (pathLength s.contig_G)

/-- The indices `remove_bins_by_size` keeps: the concatenation, in path
order, of every path whose summed length strictly exceeds `min_length`. -/
def Scaffolds.to_keep (s : Scaffolds) (min_length : ℚ) : List Nat :=
  ((get_all_paths s.contig_G).filter
    (fun p => decide (min_length < pathLength s.contig_G p))).flatten

/-- The principal submatrix on the given index list. -/
def submatrix (m : HiCMat) (idxs : List Nat) : HiCMat :=
  ⟨idxs.length, fun i j => m.entry (idxs.getD i 0) (idxs.getD j 0)⟩

/-- `Scaffolds.remove_bins_by_size(min_length)`: when anything is retained,
replace the matrix by the principal submatrix on the retained indices with
the matching sub-list of `cut_intervals` and rebuild the path graph;
otherwise the state is left untouched. -/
def Scaffolds.remove_bins_by_size (s : Scaffolds) (min_length : ℚ) : Scaffolds :=
  let tk := s.to_keep min_length
  if tk.length ≠ 0 then
    let new_ci := tk.map (fun x => s.cut_intervals.getD x default)
    ⟨submatrix s.hic tk, new_ci, init_path_graph new_ci⟩
  else s

/-- The ascending sort followed by the strict filter `length > min_length`
performed by `compute_N50`. -/
def sortedFiltered (lengths : List ℚ) (min_length : ℚ) : List ℚ :=
  (lengths.insertionSort (· ≤ ·)).filter (fun l => decide (min_length < l))

/-- `np.cumsum`: position `i` holds the sum of the first `i + 1` entries. -/
def cumsum (xs : List ℚ) : List ℚ :=
  (List.range xs.length).map (fun i => ((xs.take (i + 1)).sum))

/-- `Scaffolds.compute_N50` over the list of path lengths: sort ascending,
raise if empty, drop lengths `≤ min_length`, raise if nothing remains, then
return the entry at the first index whose cumulative sum reaches half the
total (the Python loop leaves `i` at the last index when no entry does). -/
def computeN50List (lengths : List ℚ) (min_length : ℚ) : Except PyError ℚ :=
  let sorted := lengths.insertionSort (· ≤ ·)
  if sorted.length = 0 then .error .hicAssemblerError
  else
    let filtered := sorted.filter (fun l => decide (min_length < l))
    if filtered.length = 0 then .error .hicAssemblerError
    else
      let cs := cumsum filtered
      let half := cs.getLastD 0 / 2
      let i := cs.findIdx (fun c => decide (half ≤ c))
      .ok (filtered.getD (min i (filtered.length - 1)) 0)

/-- `Scaffolds.compute_N50(min_length)` on a state. -/
def Scaffolds.compute_N50 (s : Scaffolds) (min_length : ℚ) : Except PyError ℚ :=
  computeN50List s.get_paths_length min_length

/-- The accumulation loop of `_get_path_flank`.  Because the Python 2 list
comprehension that builds `path_length` leaks its variable `x` (the last id
of `path`), the expression `sum(path_length[x] for n in flank)` evaluates to
`len(flank) * path_length[x]`; `step` is that constant `path_length[x]`. -/
def getPathFlankAux (step tmin tmax : ℚ) : List Nat → List Nat → List Nat
  | [], flank => flank
  | n :: rest, flank =>
    let flank_sum : ℚ := flank.length * step
    if tmax < flank_sum then flank
    else if tmin ≤ flank_sum ∧ flank_sum ≤ tmax then flank
    else getPathFlankAux step tmin tmax rest (flank ++ [n])

/-- `_get_path_flank(_path)` as the code executes it: `leaked` is the leaked
comprehension variable, i.e. the last id of the enclosing `path`. -/
def get_path_flank (g : PathGraph) (leaked : Nat) (tmin tmax : ℚ)
    (p : List Nat) : List Nat :=
  getPathFlankAux (g.node leaked).length tmin tmax p []

/-- The accumulation loop of `_get_path_flank` as the function's own doc
string and the specification describe it: the running value is the summed
length of the bins collected so far. -/
def getPathFlankSpecAux (g : PathGraph) (tmin tmax : ℚ) :
    List Nat → List Nat → List Nat
  | [], flank => flank
  | n :: rest, flank =>
    let flank_sum : ℚ := (flank.map (fun x => (g.node x).length)).sum
    if tmax < flank_sum then flank
    else if tmin ≤ flank_sum ∧ flank_sum ≤ tmax then flank
    else getPathFlankSpecAux g tmin tmax rest (flank ++ [n])

/-- Modelled from the spec: `_get_path_flank` as specified — greedy
accumulation of the collected bins' summed lengths, stopping before adding
the next bin once the sum reaches the tolerance band or exceeds it. -/
def get_path_flank_as_specified (g : PathGraph) (tmin tmax : ℚ)
    (p : List Nat) : List Nat :=
  getPathFlankSpecAux g tmin tmax p []

/-- The left/right flank selection of `get_flanks`: compute both greedy
flanks, strip the overlap from the left one, and fall back to equal halves
by index when either side came out empty. -/
def splitLR (g : PathGraph) (tmin tmax : ℚ) (path : List Nat) :
    List Nat × List Nat :=
  let leaked := path.getLastD 0
  let left0 := get_path_flank g leaked tmin tmax path
  let right0 := (get_path_flank g leaked tmin tmax path.reverse).reverse
  let over := left0.filter (fun x => decide (x ∈ right0))
  let left1 := if over.length ≠ 0 then left0.filter (fun x => decide (x ∉ over))
               else left0
  if left1.length = 0 ∨ right0.length = 0 then
    (path.take (path.length / 2), path.drop (path.length / 2))
  else (left1, right0)

/-- The recursion of `get_flanks`, driven by a structural fuel argument that
is kept equal to `rr + 1 - counter`: the guard `counter + 1 > rr` fires
exactly when the fuel runs out, so the fuel-0 branch agrees with the
Python early return. -/
def getFlanksFuel (g : PathGraph) (flank_length : ℚ) (rr : Nat) :
    Nat → List Nat → Nat → List (List Nat)
  | 0, _, _ => []
  | fuel + 1, path, counter =>
    if rr < counter + 1 then []
    else
      let tmax := flank_length * (5/4 : ℚ)
      let tmin := flank_length * (3/4 : ℚ)
      let path_length_sum := (path.map (fun x => (g.node x).length)).sum
      if path.length = 1 then
        if tmin < (g.node (path.headD 0)).length ∨ counter + 1 = 1 then [path]
        else []
      else
        if path_length_sum < 2 * flank_length * (3/4 : ℚ) then
          if counter + 1 = 1 then
            [path.take (path.length / 2), path.drop (path.length / 2)]
          else [path]
        else
          let lr := splitLR g tmin tmax path
          let left_flank := lr.1
          let right_flank := lr.2
          let interior0 := path.filter
            (fun x => decide (x ∉ left_flank ++ right_flank))
          let interior := if interior0.length ≠ 0 then
              getFlanksFuel g flank_length rr fuel interior0 (counter + 1)
            else []
          (if left_flank.length ≠ 0 then [left_flank] else []) ++ interior ++
            (if right_flank.length ≠ 0 then [right_flank] else [])

/-- `Scaffolds.get_flanks(path, flank_length, recursive_repetitions,
counter)`: the recursive flank partition.  The Python function increments
`counter` on entry and returns `[]` past `recursive_repetitions`; a
one-node path survives when long enough or at the outermost call; a path
shorter than `1.5 × flank_length` is halved at the outermost call and kept
whole deeper in; otherwise left and right flanks are split off and the
interior is recursed on with the incremented counter. -/
def get_flanks (g : PathGraph) (path : List Nat) (flank_length : ℚ)
    (rr : Nat) (counter : Nat) : List (List Nat) :=
  getFlanksFuel g flank_length rr (rr + 1 - counter) path counter

/-- The interval `merge_to_size` synthesizes for one reduce group: name and
start from the group's first node, end from its last node; the Python code
hits `assert start < end` whenever `end ≤ start` (for `end < start` it first
pauses in the debugger, then the assert still fails), and the new coverage
is `(first.coverage + last.end) / 2`.  An empty group would raise
`IndexError` on `sub_path[0]`. -/
def synthInterval (g : PathGraph) (sub_path : List Nat) :
    Except PyError CutInterval :=
  match sub_path with
  | [] => .error .indexError
  | f :: rest =>
    let first := g.node f
    let last := g.node ((f :: rest).getLast (by simp))
    if first.start < last.stop then
      .ok ⟨first.name, first.start, last.stop,
           (first.coverage + last.stop) / 2⟩
    else .error .assertionError

/-- The sequential interval-synthesis loop of `merge_to_size`: the first
raised exception propagates, otherwise all synthesized values are kept in
order. -/
def mapExcept (f : α → Except PyError β) : List α → Except PyError (List β)
  | [] => .ok []
  | a :: l =>
    match f a with
    | .error e => .error e
    | .ok b =>
      match mapExcept f l with
      | .error e => .error e
      | .ok bs => .ok (b :: bs)

/-- Modelled from the spec: `reduce_matrix(matrix, groups, diagonal=True)`
returns the smaller matrix whose cell `(i, j)` aggregates the contacts
between all bins of group `i` and group `j`; its dimension is the number of
groups. -/
def reduce_matrix (m : HiCMat) (groups : List (List Nat)) : HiCMat :=
  ⟨groups.length, fun i j =>
    ((groups.getD i []).map (fun a =>
      ((groups.getD j []).map (fun b => m.entry a b)).sum)).sum⟩

/-- Modelled from the spec: `iterativeCorrection` rescales the reduced
matrix to remove systematic bias, preserving its shape.  Only the shape
preservation matters to the claims below, so the rescaling itself is
abstracted to the identity. -/
def iterativeCorrection (m : HiCMat) : HiCMat := m

/-- The outcomes `merge_to_size` can return without raising. -/
inductive MergeOut where
  /-- The `return None, None` taken when fewer than two reduce groups
  exist; the state is not touched. -/
  | tooFewGroups : MergeOut
  /-- A completed merge with the replaced state. -/
  | merged : Scaffolds → MergeOut

/-- `Scaffolds.merge_to_size(target_length)`: flatten the flanks of every
path into the reduce groups; on an empty flattening the code evaluates
`log.warn("[{}] …".format(inspect.stack()[0][3]))` and `inspect` is never
imported, so a `NameError` is raised before the intended `return None`;
otherwise the new intervals are synthesized (possibly raising the assert),
fewer than two groups short-circuit with `return None, None`, and a real
merge reduces and corrects the matrix, installs the new intervals and
rebuilds the path graph. -/
def Scaffolds.merge_to_size (s : Scaffolds) (target_length : ℚ) :
    Except PyError MergeOut :=
  let paths_flatten := (get_all_paths s.contig_G).flatMap
    (fun path => get_flanks s.contig_G path target_length 100 0)
  if paths_flatten.length = 0 then .error .nameError
  else
    match mapExcept (synthInterval s.contig_G) paths_flatten with
    | .error e => .error e
    | .ok new_cut_intervals =>
      if paths_flatten.length < 2 then .ok .tooFewGroups
      else
        let reduced := reduce_matrix s.hic paths_flatten
        let corrected := iterativeCorrection reduced
        .ok (.merged ⟨corrected, new_cut_intervals,
                      init_path_graph new_cut_intervals⟩)

/-- `Scaffolds.has_edge(u, v)`: the edge in either direction. -/
def scaffoldsHasEdge (g : PathGraph) (u v : Nat) : Bool :=
  g.has_edge u v || g.has_edge v u

/-- `Scaffolds.check_edge(u, v)`: raise when the edge already exists in
either direction, when either endpoint already has two incident edges, or
when both endpoints have degree one and lie on the same path so the new
edge would close a loop. -/
def check_edge (g : PathGraph) (u v : Nat) : Except PyError Unit :=
  if scaffoldsHasEdge g u v then .error .hicAssemblerError
  else if g.degree u = 2 then .error .hicAssemblerError
  else if g.degree v = 2 then .error .hicAssemblerError
  else if g.degree u = 1 ∧ g.degree v = 1 then
    if v ∈ g.pathOf u then .error .hicAssemblerError else .ok ()
  else .ok ()

/-- Modelled from the spec: `PathGraph.add_edge(u, v)` performs the three
structural validity checks of §4.6 before insertion and raises on a
violation; on success the edge is appended. -/
def PathGraph.add_edge (g : PathGraph) (u v : Nat) :
    Except PyError PathGraph :=
  match check_edge g u v with
  | .error e => .error e
  | .ok _ => .ok { g with edges := g.edges ++ [(u, v)] }

/-- The auxiliary `networkx` graph of `get_nearest_neighbors`: an adjacency
list per node, nodes and neighbours in insertion order. -/
structure NxGraph where
  adj : List (Nat × List Nat)
deriving DecidableEq, Repr

/-- The neighbour list `G[node].keys()`. -/
def NxGraph.nbrs (G : NxGraph) (u : Nat) : List Nat :=
  (G.adj.lookup u).getD []

/-- The node iteration order `for node in G`. -/
def NxGraph.nodeList (G : NxGraph) : List Nat :=
  G.adj.map Prod.fst

/-- Record `v` as a neighbour of `u` (inserting `u` when new). -/
def NxGraph.insertNbr (G : NxGraph) (u v : Nat) : NxGraph :=
  if (G.adj.lookup u).isSome then
    ⟨G.adj.map (fun p =>
      if p.1 = u then (p.1, if v ∈ p.2 then p.2 else p.2 ++ [v]) else p)⟩
  else ⟨G.adj ++ [(u, [v])]⟩

/-- `G.add_edge(u, v)` on the undirected auxiliary graph. -/
def NxGraph.addEdge (G : NxGraph) (u v : Nat) : NxGraph :=
  (G.insertNbr u v).insertNbr v u

/-- The body of the joining loop of `get_nearest_neighbors` for one node of
the auxiliary graph.  A flank node of auxiliary degree 1 commits its single
edge inside `try/except: pass`, so a validity violation is swallowed; a
singleton of auxiliary degree 2 commits both its edges with no handler, so
a violation propagates; every other node is only logged as a hub. -/
def joinStep (flanks singletons : List Nat) (G : NxGraph)
    (st : PathGraph × List Nat) (node : Nat) :
    Except PyError (PathGraph × List Nat) :=
  let cg := st.1
  let seen := st.2
  let ks := G.nbrs node
  if ks.length = 1 ∧ node ∈ flanks ∧ node ∉ seen then
    let cg1 := match cg.add_edge node (ks.getD 0 0) with
               | .ok g => g
               | .error _ => cg
    .ok (cg1, seen ++ [node, ks.getD 0 0])
  else if ks.length = 2 ∧ node ∈ singletons ∧ node ∉ seen then do
    let cg1 ← cg.add_edge node (ks.getD 0 0)
    let seen1 := seen ++ [node, ks.getD 0 0]
    let cg2 ← cg1.add_edge node (ks.getD 1 0)
    return (cg2, seen1 ++ [ks.getD 1 0])
  else .ok (cg, seen)

/-- `Scaffolds.get_nearest_neighbors(confidence_score)`: zero out entries at
or below the threshold, keep the strict upper triangle (row-major entry
order), classify path endpoints as flanks and one-bin paths as singletons,
build the auxiliary graph over edges joining two such nodes, and run the
joining loop.  The result carries the final path graph and `seen` list (the
Python function ends in an unconditional `ipdb.set_trace()` debugger pause,
modelled as a no-op). -/
def Scaffolds.get_nearest_neighbors (s : Scaffolds) (confidence_score : ℚ) :
    Except PyError (PathGraph × List Nat) :=
  let n := s.hic.dim
  let entries := (List.range n).flatMap (fun i =>
    (List.range n).filterMap (fun j =>
      if i < j ∧ s.hic.entry i j ≠ 0 ∧ confidence_score < s.hic.entry i j
      then some (i, j) else none))
  let ps := get_all_paths s.contig_G
  let flanks := ps.flatMap (fun p =>
    if p.length = 1 then [] else [p.headD 0, p.getLastD 0])
  let singletons := ps.flatMap (fun p => if p.length = 1 then p else [])
  let nodes := flanks ++ singletons
  let G := entries.foldl (fun (G : NxGraph) e =>
    if e.1 ∈ nodes ∧ e.2 ∈ nodes then G.addEdge e.1 e.2 else G) ⟨[]⟩
  G.nodeList.foldlM (joinStep flanks singletons G) (s.contig_G, [])

/-- The claimed invariant between the path graph and the matrix: the node
list is exactly `0, …, N-1` for the matrix's `N` bins, each node carrying
the attribute record of the bin metadata at its own index. -/
def nodesMatchBins (s : Scaffolds) : Prop :=
  s.hic.dim = s.cut_intervals.length ∧
  s.contig_G.nodes = s.cut_intervals.enum.map (fun p => (p.1, binAttr p.2))

/-- `nodesMatchBins` demanded only of a completed merge outcome. -/
def mergedStateConsistent : Except PyError MergeOut → Prop
  | .ok (.merged s') => nodesMatchBins s'
  | _ => True

/-- Three bins of one contig with lengths 100, 10, 10. -/
def ciA : List CutInterval :=
  [⟨"c-0", 0, 100, 1⟩, ⟨"c-0", 100, 110, 1⟩, ⟨"c-0", 110, 120, 1⟩]

/-- The path graph over `ciA`. -/
def gA : PathGraph := init_path_graph ciA

/-- Five 10 bp bins of one contig (the doctest state of `get_flanks`). -/
def ciB : List CutInterval :=
  [⟨"c-0", 0, 10, 1⟩, ⟨"c-0", 10, 20, 1⟩, ⟨"c-0", 20, 30, 1⟩,
   ⟨"c-0", 30, 40, 1⟩, ⟨"c-0", 40, 50, 1⟩]

/-- The path graph over `ciB`. -/
def gB : PathGraph := init_path_graph ciB

/-- A state with no bins at all. -/
def sEmpty : Scaffolds := Scaffolds.init ⟨0, fun _ _ => 0⟩ []

/-- A state with one 10 bp bin. -/
def sOneBin : Scaffolds := Scaffolds.init ⟨1, fun _ _ => 1⟩ [⟨"c-0", 0, 10, 1⟩]

/-- The doctest state of `compute_N50`: path lengths 20, 30, 10, 10, 10. -/
def ciN50 : List CutInterval :=
  [⟨"c-0", 0, 10, 1⟩, ⟨"c-0", 10, 20, 1⟩, ⟨"c-2", 0, 30, 1⟩,
   ⟨"c-3", 0, 10, 1⟩, ⟨"c-2", 20, 30, 1⟩, ⟨"c-3", 0, 10, 1⟩]

/-- The `Scaffolds` state over `ciN50`. -/
def sN50 : Scaffolds := Scaffolds.init ⟨6, fun _ _ => 0⟩ ciN50

/-- Two singleton paths with lengths 10 and 30. -/
def sTwoPaths : Scaffolds :=
  Scaffolds.init ⟨2, fun _ _ => 0⟩ [⟨"c-0", 0, 10, 1⟩, ⟨"c-1", 0, 30, 1⟩]

/-- Contact counts for the neighbour-joining counterexample: bin 0 is in
strong contact with bins 1 and 2. -/
def entryNN : Nat → Nat → ℚ := fun i j =>
  if (i = 0 ∧ j = 1) ∨ (i = 1 ∧ j = 0) ∨ (i = 0 ∧ j = 2) ∨ (i = 2 ∧ j = 0)
  then 5 else 0

/-- The neighbour-joining counterexample state: singleton contig `c-0`
followed by the two-bin contig `c-1`. -/
def sNN : Scaffolds :=
  Scaffolds.init ⟨3, entryNN⟩
    [⟨"c-0", 0, 10, 1⟩, ⟨"c-1", 0, 10, 1⟩, ⟨"c-1", 10, 20, 1⟩]

/-- Four 10 bp bins of one contig, merged in pairs by `merge_to_size 20`. -/
def sFourBins : Scaffolds :=
  Scaffolds.init ⟨4, fun _ _ => 1⟩
    [⟨"c-0", 0, 10, 1⟩, ⟨"c-0", 10, 20, 1⟩, ⟨"c-0", 20, 30, 1⟩,
     ⟨"c-0", 30, 40, 1⟩]


set_option maxRecDepth 100000

/-- C1: the left-flank scan of `get_flanks` does not accumulate the summed
lengths of the bins collected so far.  Over the path `[0, 1, 2]` of `gA`
(bin lengths 100, 10, 10) with `target_length = 40` — total length 120 ≥
1.5 × 40, tolerance band `[30, 50]` — the code's scan collects all of
`[0, 1, 2]` (its running value is `len(flank) * length(path[-1])`, because
the Python 2 comprehension variable `x` leaks into
`sum(path_length[x] for n in flank)`), while the scan described by the
claim and by `_get_path_flank`'s own doc string stops at `[0]`, whose very
first accumulated value 100 already exceeds 1.25 × 40 = 50. -/
theorem c1_left_flank_scan_uses_leaked_variable :
    get_path_flank gA 2 30 50 [0, 1, 2] = [0, 1, 2] ∧
    get_path_flank_as_specified gA 30 50 [0, 1, 2] = [0] ∧
    (gA.node 0).length = 100 ∧
    decide ((40 : ℚ) * (5/4) < 100) = true := by
  refine ⟨?_, ?_, ?_, ?_⟩ <;> with_unfolding_all rfl

/-- C2 counterexample: on the five-bin path `[0, 1, 2, 3, 4]` of `gB` (all
bins 10 bp) with `target_length = 20` and `max_depth = 30`, `get_flanks`
returns `[[0, 1], [3, 4]]` — index 2 of the input path appears in no
returned flank, so the returned flanks are not a partition of the path's
index set. -/
theorem c2_get_flanks_drops_an_interior_index :
    get_flanks gB [0, 1, 2, 3, 4] 20 30 0 = [[0, 1], [3, 4]] ∧
    2 ∈ [0, 1, 2, 3, 4] ∧
    ∀ f ∈ get_flanks gB [0, 1, 2, 3, 4] 20 30 0, 2 ∉ f := by
  have h : get_flanks gB [0, 1, 2, 3, 4] 20 30 0 = [[0, 1], [3, 4]] := by
    with_unfolding_all rfl
  refine ⟨h, by decide, ?_⟩
  rw [h]; decide

/-- C3: evaluated on a state with no paths at all, `merge_to_size` raises
`NameError` (the warning in its empty branch references `inspect`, which
`Scaffolds.py` never imports) instead of signalling the intended no-op;
with exactly one well-formed reduce group it does stop with the
`return None, None` no-op, leaving the state untouched. -/
theorem c3_merge_to_size_empty_branch_raises_nameerror :
    sEmpty.merge_to_size 20 = .error .nameError ∧
    sOneBin.merge_to_size 20 = .ok .tooFewGroups := by
  exact ⟨by with_unfolding_all rfl, by with_unfolding_all rfl⟩

/-- C5 counterexample: on a state whose path lengths are `[10, 30]` with
`min_length = 20`, exactly one length survives the filter — fewer than 2 —
yet `compute_N50` returns the value 30 instead of signalling an
insufficient-data outcome. -/
theorem c5_compute_N50_single_survivor_returns_value :
    (sTwoPaths.get_paths_length.filter (fun l => decide ((20 : ℚ) < l))).length = 1 ∧
    sTwoPaths.compute_N50 20 = .ok 30 := by
  exact ⟨by with_unfolding_all rfl, by with_unfolding_all rfl⟩

/-- C7 counterexample: on the state `sNN` (singleton contig `c-0` in strong
contact with both bins of the two-bin contig `c-1`) with threshold 1, the
singleton enters the auxiliary-degree-2 branch of the joining loop; its
second committed edge fails the validity check (it would close the chain
0–1–2 into a loop) and, that branch having no `try/except`, the exception
escapes `get_nearest_neighbors` to the caller. -/
theorem c7_invalid_edge_escapes_get_nearest_neighbors :
    sNN.get_nearest_neighbors 1 = .error .hicAssemblerError := by
  with_unfolding_all rfl

/-- C8 counterexample: with one 10 bp bin and `min_length = 10` no path is
retained, `remove_bins_by_size` leaves the matrix untouched, and the
resulting dimension 1 differs from the number 0 of retained indices. -/
theorem c8_remove_bins_empty_retention_keeps_old_dimension :
    sOneBin.to_keep 10 = [] ∧
    (sOneBin.remove_bins_by_size 10).hic.dim = 1 ∧
    (sOneBin.remove_bins_by_size 10).hic.dim ≠ (sOneBin.to_keep 10).length := by
  refine ⟨?_, ?_, ?_⟩
  · with_unfolding_all rfl
  · with_unfolding_all rfl
  · have h1 : sOneBin.to_keep 10 = [] := by with_unfolding_all rfl
    have h2 : (sOneBin.remove_bins_by_size 10).hic.dim = 1 := by
      with_unfolding_all rfl
    rw [h1, h2]; decide

/-- C6: `check_edge(u, v)` raises exactly when the edge already exists in
either direction, or an endpoint already has degree 2, or both endpoints
have degree 1 and lie on the same path (so the edge would close a cycle);
in every other case it returns normally — and, being a pure query over the
graph, it leaves the graph unchanged by construction. -/
theorem c6_check_edge_raises_iff (g : PathGraph) (u v : Nat) :
    (check_edge g u v = .error .hicAssemblerError ↔
      (scaffoldsHasEdge g u v = true ∨ g.degree u = 2 ∨ g.degree v = 2 ∨
        (g.degree u = 1 ∧ g.degree v = 1 ∧ v ∈ g.pathOf u))) ∧
    (check_edge g u v = .ok () ↔
      ¬(scaffoldsHasEdge g u v = true ∨ g.degree u = 2 ∨ g.degree v = 2 ∨
        (g.degree u = 1 ∧ g.degree v = 1 ∧ v ∈ g.pathOf u))) := by
  unfold check_edge
  split_ifs with h1 h2 h3 h4 h5 <;> simp_all

/-- `getLast` of a nonempty list agrees with `getLastD`. -/
theorem getLast_cons_eq_getLastD (f : Nat) (rest : List Nat) :
    (f :: rest).getLast (by simp) = (f :: rest).getLastD 0 := by
  simp [List.getLastD_eq_getLast?, List.getLast?_eq_getLast]

/-- C9: for every nonempty reduce group, the synthesized bin takes its name
and start from the group's first member and its end from the last member,
with coverage `(first.coverage + last.end) / 2`; whenever the resulting end
is less than or equal to the start, the `assert start < end` raises
immediately instead. -/
theorem c9_merge_group_interval_synthesis (g : PathGraph) (sp : List Nat)
    (h : sp ≠ []) :
    (¬ (g.node (sp.headD 0)).start < (g.node (sp.getLastD 0)).stop →
       synthInterval g sp = .error .assertionError) ∧
    ((g.node (sp.headD 0)).start < (g.node (sp.getLastD 0)).stop →
       synthInterval g sp = .ok ⟨(g.node (sp.headD 0)).name,
         (g.node (sp.headD 0)).start, (g.node (sp.getLastD 0)).stop,
         ((g.node (sp.headD 0)).coverage + (g.node (sp.getLastD 0)).stop) / 2⟩) := by
  match sp with
  | [] => exact absurd rfl h
  | f :: rest =>
    simp only [synthInterval, List.headD_cons, getLast_cons_eq_getLastD]
    constructor
    · intro hlt
      rw [if_neg hlt]
    · intro hlt
      rw [if_pos hlt]

/-- C9 witness: the group `[0, 1]` of `gA` synthesizes the bin
`("c-0", 0, 110, (1 + 110)/2)`. -/
theorem c9_merge_group_interval_synthesis_witness :
    synthInterval gA [0, 1] = .ok ⟨(gA.node 0).name, (gA.node 0).start,
      (gA.node 1).stop, ((gA.node 0).coverage + (gA.node 1).stop) / 2⟩ :=
  (c9_merge_group_interval_synthesis gA [0, 1] (by decide)).2
    (by with_unfolding_all rfl)

/-- C5 amended: `compute_N50` signals its explicit insufficient-data error
exactly when zero path lengths survive the `> min_length` filter (in
particular when no paths exist at all); whenever at least one length
survives — including exactly one — it returns a length value instead. -/
theorem c5_compute_N50_error_iff_no_survivor (lengths : List ℚ) (min_length : ℚ) :
    (∃ e, computeN50List lengths min_length = .error e) ↔
      lengths.filter (fun l => decide (min_length < l)) = [] := by
  have hperm := List.perm_insertionSort ((· ≤ ·) : ℚ → ℚ → Prop) lengths
  have hfil := hperm.filter (fun l => decide (min_length < l))
  simp only [computeN50List]
  split_ifs with h1 h2
  · simp only [List.length_eq_zero] at h1
    rw [h1] at hperm
    have : lengths = [] := hperm.symm.eq_nil
    simp [this]
  · simp only [List.length_eq_zero] at h2
    rw [h2] at hfil
    have : lengths.filter (fun l => decide (min_length < l)) = [] := hfil.symm.eq_nil
    simp [this]
  · constructor
    · rintro ⟨e, he⟩
      exact absurd he (by simp)
    · intro hnil
      rw [hnil] at hfil
      have := hfil.eq_nil
      simp only [List.length_eq_zero] at h2
      exact absurd this h2

/-- C8 amended: provided at least one path is retained, the new matrix's
dimension equals the number of retained bin indices; unconditionally, every
retained path's summed bin length strictly exceeds `min_length` and every
discarded path's summed bin length is at most `min_length`.  (When nothing
is retained the state — and so the old matrix dimension — is kept, as the
counterexample shows.) -/
theorem c8_remove_bins_by_size_spec (s : Scaffolds) (min_length : ℚ)
    (h : s.to_keep min_length ≠ []) :
    (s.remove_bins_by_size min_length).hic.dim = (s.to_keep min_length).length ∧
    (∀ p ∈ (get_all_paths s.contig_G).filter
        (fun p => decide (min_length < pathLength s.contig_G p)),
       min_length < pathLength s.contig_G p) ∧
    (∀ p ∈ get_all_paths s.contig_G,
       p ∉ (get_all_paths s.contig_G).filter
         (fun p => decide (min_length < pathLength s.contig_G p)) →
       pathLength s.contig_G p ≤ min_length) := by
  refine ⟨?_, ?_, ?_⟩
  · have hlen : (s.to_keep min_length).length ≠ 0 := by
      simpa [List.length_eq_zero] using h
    simp only [Scaffolds.remove_bins_by_size]
    rw [if_pos hlen]
    rfl
  · intro p hp
    have := (List.mem_filter.mp hp).2
    simpa using this
  · intro p hp hnot
    by_contra hgt
    push_neg at hgt
    exact hnot (List.mem_filter.mpr ⟨hp, by simpa using hgt⟩)

/-- C8 witness: on `sN50` with `min_length = 15` the retained index list is
`[0, 1, 2]`, the new matrix dimension is 3, and the filter facts hold. -/
theorem c8_remove_bins_by_size_spec_witness :
    (sN50.remove_bins_by_size 15).hic.dim = (sN50.to_keep 15).length ∧
    (∀ p ∈ (get_all_paths sN50.contig_G).filter
        (fun p => decide ((15 : ℚ) < pathLength sN50.contig_G p)),
       (15 : ℚ) < pathLength sN50.contig_G p) ∧
    (∀ p ∈ get_all_paths sN50.contig_G,
       p ∉ (get_all_paths sN50.contig_G).filter
         (fun p => decide ((15 : ℚ) < pathLength sN50.contig_G p)) →
       pathLength sN50.contig_G p ≤ 15) :=
  c8_remove_bins_by_size_spec sN50 15
    (by rw [show sN50.to_keep 15 = [0, 1, 2] from by with_unfolding_all rfl]
        decide)

/-- `initLoop` appends exactly one node per interval, in index order;
`add_path` never touches the node list. -/
theorem initLoop_nodes (l : List (Nat × CutInterval)) (g : PathGraph)
    (cp : List Nat) (prev : Option String) :
    (initLoop l g cp prev).nodes =
      g.nodes ++ l.map (fun p => (p.1, binAttr p.2)) := by
  induction l generalizing g cp prev with
  | nil =>
    simp only [initLoop, List.map_nil, List.append_nil]
    split <;> rfl
  | cons hd tl ih =>
    obtain ⟨idx, iv⟩ := hd
    simp only [initLoop]
    rw [ih]
    simp only [List.map_cons]
    split
    · split <;> simp [PathGraph.add_node, PathGraph.add_path, List.append_assoc]
    · simp [PathGraph.add_node, List.append_assoc]

/-- The node list built by `_init_path_graph` enumerates the intervals. -/
theorem init_path_graph_nodes (ci : List CutInterval) :
    (init_path_graph ci).nodes = ci.enum.map (fun p => (p.1, binAttr p.2)) := by
  simpa using initLoop_nodes ci.enum ⟨[], []⟩ [] none

/-- A successful `mapExcept` preserves length. -/
theorem mapExcept_ok_length (f : α → Except PyError β) (l : List α)
    (l' : List β) (h : mapExcept f l = .ok l') : l'.length = l.length := by
  induction l generalizing l' with
  | nil => simp [mapExcept] at h; simp [← h]
  | cons a t ih =>
    simp only [mapExcept] at h
    cases hf : f a with
    | error e => rw [hf] at h; exact absurd h (by simp)
    | ok b =>
      rw [hf] at h
      cases ht : mapExcept f t with
      | error e => rw [ht] at h; exact absurd h (by simp)
      | ok bs =>
        rw [ht] at h
        have : b :: bs = l' := by simpa using h
        rw [← this]
        simp [ih bs ht]

/-- C10: after construction, after a `remove_bins_by_size` that retains at
least one path, and after a `merge_to_size` that completes with a merged
state, the path graph's node list is exactly `(0, attrs 0), …, (N-1,
attrs (N-1))` for the `N` bins of the current matrix (assuming the supplied
matrix and metadata agree at construction), each node's attributes coming
from the bin metadata at its own index. -/
theorem c10_path_graph_matches_bins :
    (∀ (m : HiCMat) (ci : List CutInterval), m.dim = ci.length →
       nodesMatchBins (Scaffolds.init m ci)) ∧
    (∀ (s : Scaffolds) (min_length : ℚ), s.to_keep min_length ≠ [] →
       nodesMatchBins (s.remove_bins_by_size min_length)) ∧
    (∀ (s : Scaffolds) (t : ℚ), mergedStateConsistent (s.merge_to_size t)) := by
  refine ⟨?_, ?_, ?_⟩
  · intro m ci hdim
    exact ⟨hdim, init_path_graph_nodes ci⟩
  · intro s min_length h
    have hlen : (s.to_keep min_length).length ≠ 0 := by
      simpa [List.length_eq_zero] using h
    simp only [Scaffolds.remove_bins_by_size, nodesMatchBins]
    rw [if_pos hlen]
    refine ⟨by simp [submatrix], init_path_graph_nodes _⟩
  · intro s t
    simp only [Scaffolds.merge_to_size]
    split_ifs with h1 h2
    · trivial
    · cases hm : mapExcept (synthInterval s.contig_G)
        ((get_all_paths s.contig_G).flatMap
          (fun path => get_flanks s.contig_G path t 100 0)) with
      | error e => trivial
      | ok new_ci => trivial
    · cases hm : mapExcept (synthInterval s.contig_G)
        ((get_all_paths s.contig_G).flatMap
          (fun path => get_flanks s.contig_G path t 100 0)) with
      | error e => trivial
      | ok new_ci =>
        simp only [mergedStateConsistent, nodesMatchBins]
        refine ⟨?_, init_path_graph_nodes _⟩
        simp [iterativeCorrection, reduce_matrix,
          mapExcept_ok_length _ _ _ hm]

/-- C10 witness: the invariant holds for a concrete construction, a
concrete retaining removal, and a concrete completed merge. -/
theorem c10_path_graph_matches_bins_witness :
    nodesMatchBins (Scaffolds.init ⟨1, fun _ _ => 0⟩ [⟨"c-0", 0, 10, 1⟩]) ∧
    nodesMatchBins (sN50.remove_bins_by_size 15) ∧
    mergedStateConsistent (sFourBins.merge_to_size 20) :=
  ⟨c10_path_graph_matches_bins.1 ⟨1, fun _ _ => 0⟩ [⟨"c-0", 0, 10, 1⟩] rfl,
   c10_path_graph_matches_bins.2.1 sN50 15
     (by rw [show sN50.to_keep 15 = [0, 1, 2] from by with_unfolding_all rfl]
         decide),
   c10_path_graph_matches_bins.2.2 sFourBins 20⟩

/-- A joining-loop step can only raise from the singleton
(auxiliary-degree-2) branch; every other node yields a normal result. -/
theorem joinStep_ok_of_not_degree2_singleton (flanks singletons : List Nat)
    (G : NxGraph) (st : PathGraph × List Nat) (n : Nat)
    (hn : ¬((G.nbrs n).length = 2 ∧ n ∈ singletons)) :
    ∃ x, joinStep flanks singletons G st n = .ok x := by
  obtain ⟨cg, seen⟩ := st
  simp only [joinStep]
  split_ifs with h1 h2
  · exact ⟨_, rfl⟩
  · exact absurd ⟨h2.1, h2.2.1⟩ hn
  · exact ⟨_, rfl⟩

/-- C7 amended: every edge committed by the joining loop is first subjected
to the validity check (`add_edge` succeeds only when `check_edge` passes,
second conjunct), and as long as no node is processed in the singleton
branch — the one whose `add_edge` calls are not wrapped in `try/except` —
no exception escapes the loop: flank-branch violations abort only their own
edge and the pass continues (first conjunct).  The counterexample shows an
exception from the singleton branch does escape. -/
theorem c7_flank_branch_violations_are_contained :
    (∀ (flanks singletons : List Nat) (G : NxGraph) (cg : PathGraph)
       (seen : List Nat) (ns : List Nat),
       (∀ n ∈ ns, ¬((G.nbrs n).length = 2 ∧ n ∈ singletons)) →
       ∃ st', ns.foldlM (joinStep flanks singletons G) (cg, seen) = .ok st') ∧
    (∀ (cg : PathGraph) (u v : Nat) (g' : PathGraph),
       cg.add_edge u v = .ok g' → check_edge cg u v = .ok ()) := by
  constructor
  · intro flanks singletons G cg seen ns h
    induction ns generalizing cg seen with
    | nil => exact ⟨(cg, seen), rfl⟩
    | cons n t ih =>
      have hn := h n (by simp)
      have ht : ∀ m ∈ t, ¬((G.nbrs m).length = 2 ∧ m ∈ singletons) :=
        fun m hm => h m (by simp [hm])
      obtain ⟨x, hx⟩ :=
        joinStep_ok_of_not_degree2_singleton flanks singletons G (cg, seen) n hn
      obtain ⟨st', hst'⟩ := ih x.1 x.2 ht
      exact ⟨st', by rw [List.foldlM_cons, hx]; exact hst'⟩
  · intro cg u v g' h
    unfold PathGraph.add_edge at h
    cases hc : check_edge cg u v with
    | error e => rw [hc] at h; exact absurd h (by simp)
    | ok a => rfl

/-- C7 witness: a one-node iteration over a flank node of auxiliary degree
one completes normally, and a concrete successful `add_edge` implies the
check passed. -/
theorem c7_flank_branch_violations_are_contained_witness :
    (∃ st', [0].foldlM (joinStep [0] [] ⟨[(0, [1])]⟩) ((⟨[], []⟩ : PathGraph), []) = .ok st') ∧
    check_edge ⟨[], []⟩ 0 1 = .ok () :=
  ⟨c7_flank_branch_violations_are_contained.1 [0] [] ⟨[(0, [1])]⟩ ⟨[], []⟩ [] [0]
     (by decide),
   c7_flank_branch_violations_are_contained.2 ⟨[], []⟩ 0 1 ⟨[], [(0, 1)]⟩
     (by with_unfolding_all rfl)⟩

/-- `cumsum` preserves length. -/
theorem cumsum_length (xs : List ℚ) : (cumsum xs).length = xs.length := by
  simp [cumsum]

/-- `getLastD` of a nonempty list is its last element. -/
theorem getLastD_eq_getLast {α : Type} (l : List α) (d : α) (h : l ≠ []) :
    l.getLastD d = l.getLast h := by
  simp [List.getLastD_eq_getLast?, List.getLast?_eq_getLast l h]

/-- Entry `i` of `cumsum xs` is the sum of the first `i + 1` entries. -/
theorem cumsum_getD (xs : List ℚ) (i : Nat) (h : i < xs.length) :
    (cumsum xs).getD i 0 = (xs.take (i + 1)).sum := by
  rw [List.getD_eq_getElem?_getD]
  simp [cumsum, List.getElem?_map, List.getElem?_range, h]

/-- `getElem` form of `cumsum_getD`. -/
theorem cumsum_getElem (xs : List ℚ) (i : Nat)
    (h2 : i < (cumsum xs).length) :
    (cumsum xs)[i] = (xs.take (i + 1)).sum := by
  simp [cumsum]

/-- The last entry of `cumsum xs` is the total sum. -/
theorem cumsum_getLastD (xs : List ℚ) (h : xs ≠ []) :
    (cumsum xs).getLastD 0 = xs.sum := by
  have hlen : (cumsum xs).length = xs.length := cumsum_length xs
  have hne : cumsum xs ≠ [] := by
    intro hc; rw [hc] at hlen; exact h (List.length_eq_zero.mp hlen.symm)
  have hpos := List.length_pos.mpr h
  rw [getLastD_eq_getLast _ _ hne, List.getLast_eq_getElem,
    cumsum_getElem xs _ (by omega)]
  have : (cumsum xs).length - 1 + 1 = xs.length := by omega
  rw [this, List.take_length]

/-- C4: whenever `compute_N50` returns a value over nonnegative path
lengths, that value sits in the ascending-sorted, `> min_length`-filtered
length list at the first index whose cumulative sum reaches or exceeds half
the total sum (all earlier cumulative sums fall short of half); and on the
doctest state whose path lengths enumerate as [20, 30, 10, 10, 10] with
`min_length = 2` the result is 20. -/
theorem c4_compute_N50_spec :
    (∀ (lengths : List ℚ) (min_length v : ℚ),
       (∀ x ∈ lengths, 0 ≤ x) →
       computeN50List lengths min_length = .ok v →
       ∃ i, i < (sortedFiltered lengths min_length).length ∧
         v = (sortedFiltered lengths min_length).getD i 0 ∧
         (sortedFiltered lengths min_length).sum / 2 ≤
           ((sortedFiltered lengths min_length).take (i + 1)).sum ∧
         ∀ j < i, ((sortedFiltered lengths min_length).take (j + 1)).sum <
           (sortedFiltered lengths min_length).sum / 2) ∧
    sN50.compute_N50 2 = .ok 20 := by
  constructor
  · intro lengths min_length v hnn hok
    simp only [computeN50List] at hok
    split_ifs at hok with h1 h2
    set F := sortedFiltered lengths min_length with hFdef
    have hFeq : (lengths.insertionSort (· ≤ ·)).filter
        (fun l => decide (min_length < l)) = F := rfl
    rw [hFeq] at hok h2
    have hFne : F ≠ [] := fun hc => h2 (by rw [hc]; rfl)
    have hFpos : 0 < F.length := List.length_pos.mpr hFne
    have hnnF : ∀ x ∈ F, 0 ≤ x := by
      intro x hx
      have hx1 : x ∈ lengths.insertionSort (· ≤ ·) := List.mem_of_mem_filter hx
      exact hnn x ((List.perm_insertionSort (· ≤ ·) lengths).mem_iff.mp hx1)
    have hsumnn : 0 ≤ F.sum := List.sum_nonneg hnnF
    have hlast : (cumsum F).getLastD 0 = F.sum := cumsum_getLastD F hFne
    rw [hlast] at hok
    have hcne : cumsum F ≠ [] := by
      intro hc
      have := cumsum_length F
      rw [hc] at this
      exact hFne (List.length_eq_zero.mp this.symm)
    have hex : ∃ c ∈ cumsum F, (fun c => decide (F.sum / 2 ≤ c)) c = true := by
      refine ⟨(cumsum F).getLast hcne, List.getLast_mem hcne, ?_⟩
      rw [← getLastD_eq_getLast _ 0 hcne, hlast]
      simp only [decide_eq_true_eq]
      linarith
    have hidx : (cumsum F).findIdx (fun c => decide (F.sum / 2 ≤ c)) <
        (cumsum F).length := List.findIdx_lt_length_of_exists hex
    set i := (cumsum F).findIdx (fun c => decide (F.sum / 2 ≤ c)) with hidef
    have hiF : i < F.length := by rw [← cumsum_length F]; exact hidx
    have hmin : min i (F.length - 1) = i := by omega
    rw [hmin] at hok
    refine ⟨i, hiF, ?_, ?_, ?_⟩
    · exact (by simpa using hok.symm)
    · have := @List.findIdx_getElem _ _ _ hidx
      rw [cumsum_getElem F i hidx] at this
      simpa using this
    · intro j hj
      have hjlt : j < (cumsum F).length := by
        rw [cumsum_length]; omega
      have := @List.not_of_lt_findIdx _ (fun c => decide (F.sum / 2 ≤ c))
        (cumsum F) j (by omega)
      rw [cumsum_getElem F j hjlt] at this
      simp only [decide_eq_false_iff_not, not_le] at this
      exact this
  · with_unfolding_all rfl

/-- C4 witness: instantiated at lengths [10, 30] with `min_length = 0`,
where `compute_N50` returns 30, the witness index exists. -/
theorem c4_compute_N50_spec_witness :
    ∃ i, i < (sortedFiltered [10, 30] 0).length ∧
      (30 : ℚ) = (sortedFiltered [10, 30] 0).getD i 0 ∧
      (sortedFiltered [10, 30] 0).sum / 2 ≤
        ((sortedFiltered [10, 30] 0).take (i + 1)).sum ∧
      ∀ j < i, ((sortedFiltered [10, 30] 0).take (j + 1)).sum <
        (sortedFiltered [10, 30] 0).sum / 2 :=
  c4_compute_N50_spec.1 [10, 30] 0 30
    (of_decide_eq_true (by with_unfolding_all rfl))
    (by with_unfolding_all rfl)

/-- The flank accumulated by `_get_path_flank` is an initial segment of the
scanned list. -/
theorem getPathFlankAux_eq_take (step tmin tmax : ℚ) (rest : List Nat) :
    ∀ acc : List Nat, ∃ k,
      getPathFlankAux step tmin tmax rest acc = acc ++ rest.take k := by
  induction rest with
  | nil => intro acc; exact ⟨0, by simp [getPathFlankAux]⟩
  | cons n t ih =>
    intro acc
    simp only [getPathFlankAux]
    split_ifs with h1 h2
    · exact ⟨0, by simp⟩
    · exact ⟨0, by simp⟩
    · obtain ⟨k, hk⟩ := ih (acc ++ [n])
      refine ⟨k + 1, ?_⟩
      rw [hk, List.take_succ_cons]
      simp

/-- `_get_path_flank` only returns ids of its input. -/
theorem get_path_flank_subset (g : PathGraph) (leaked : Nat) (tmin tmax : ℚ)
    (p : List Nat) : get_path_flank g leaked tmin tmax p ⊆ p := by
  obtain ⟨k, hk⟩ :=
    getPathFlankAux_eq_take (g.node leaked).length tmin tmax p []
  unfold get_path_flank
  rw [hk]
  simpa using List.take_subset k p

/-- The left/right flank selection yields two disjoint sub-lists of the
path (the overlap is removed from the left flank, and the equal-halves
fallback splits a duplicate-free path disjointly). -/
theorem splitLR_spec (g : PathGraph) (tmin tmax : ℚ) (path : List Nat)
    (hnd : path.Nodup) :
    (splitLR g tmin tmax path).1 ⊆ path ∧
    (splitLR g tmin tmax path).2 ⊆ path ∧
    (splitLR g tmin tmax path).1.Disjoint (splitLR g tmin tmax path).2 := by
  have hleft := get_path_flank_subset g (path.getLastD 0) tmin tmax path
  have hrightrev :=
    get_path_flank_subset g (path.getLastD 0) tmin tmax path.reverse
  simp only [splitLR]
  split_ifs with hov hfall hfall
  · exact ⟨List.take_subset _ _, List.drop_subset _ _,
      List.disjoint_take_drop hnd le_rfl⟩
  · refine ⟨?_, ?_, ?_⟩
    · intro x hx
      exact hleft (List.mem_of_mem_filter hx)
    · intro x hx
      have : x ∈ path.reverse := hrightrev (List.mem_reverse.mp hx)
      exact List.mem_reverse.mp this
    · intro x hxl hxr
      have h1 := List.mem_filter.mp hxl
      have h2 := h1.2
      simp only [decide_eq_true_eq] at h2
      exact h2 (List.mem_filter.mpr ⟨h1.1, by simpa using hxr⟩)
  · exact ⟨List.take_subset _ _, List.drop_subset _ _,
      List.disjoint_take_drop hnd le_rfl⟩
  · refine ⟨hleft, ?_, ?_⟩
    · intro x hx
      have : x ∈ path.reverse := hrightrev (List.mem_reverse.mp hx)
      exact List.mem_reverse.mp this
    · intro x hxl hxr
      have hemp : (get_path_flank g (path.getLastD 0) tmin tmax path).filter
          (fun x => decide (x ∈ (get_path_flank g (path.getLastD 0) tmin tmax
            path.reverse).reverse)) = [] := by
        simpa [List.length_eq_zero] using hov
      have hmem : x ∈ (get_path_flank g (path.getLastD 0) tmin tmax
          path).filter (fun x => decide (x ∈ (get_path_flank g
            (path.getLastD 0) tmin tmax path.reverse).reverse)) :=
        List.mem_filter.mpr ⟨hxl, by simpa using hxr⟩
      rw [hemp] at hmem
      exact absurd hmem (List.not_mem_nil x)

/-- Gluing a left flank, recursively produced interior flanks, and a right
flank preserves the sub-partition properties. -/
theorem flanks_glue (L R P : List Nat) (inner : List (List Nat))
    (hLP : L ⊆ P) (hRP : R ⊆ P) (hLR : L.Disjoint R)
    (hinner_sub : ∀ f ∈ inner, f ⊆ P)
    (hinner_pair : inner.Pairwise List.Disjoint)
    (hinnerL : ∀ f ∈ inner, ∀ x ∈ f, x ∉ L)
    (hinnerR : ∀ f ∈ inner, ∀ x ∈ f, x ∉ R) :
    (∀ f ∈ (if L.length ≠ 0 then [L] else []) ++ inner ++
        (if R.length ≠ 0 then [R] else []), f ⊆ P) ∧
    ((if L.length ≠ 0 then [L] else []) ++ inner ++
        (if R.length ≠ 0 then [R] else [])).Pairwise List.Disjoint := by
  have hLinner : ∀ b ∈ inner, L.Disjoint b :=
    fun b hb x hxL hxb => hinnerL b hb x hxb hxL
  have hinnerRd : ∀ a ∈ inner, a.Disjoint R :=
    fun a ha x hxa hxR => hinnerR a ha x hxa hxR
  have memL : ∀ f, f ∈ (if L.length ≠ 0 then [L] else ([] : List (List Nat))) →
      f = L := by
    intro f hf
    split_ifs at hf
    · simpa using hf
    · exact absurd hf (List.not_mem_nil f)
  have memR : ∀ f, f ∈ (if R.length ≠ 0 then [R] else ([] : List (List Nat))) →
      f = R := by
    intro f hf
    split_ifs at hf
    · simpa using hf
    · exact absurd hf (List.not_mem_nil f)
  constructor
  · intro f hf
    simp only [List.mem_append] at hf
    rcases hf with (hf | hf) | hf
    · exact (memL f hf) ▸ hLP
    · exact hinner_sub f hf
    · exact (memR f hf) ▸ hRP
  · rw [List.pairwise_append, List.pairwise_append]
    refine ⟨⟨?_, hinner_pair, ?_⟩, ?_, ?_⟩
    · split_ifs <;> simp
    · intro a ha b hb
      rw [memL a ha]
      exact hLinner b hb
    · split_ifs <;> simp
    · intro a ha b hb
      rw [memR b hb]
      simp only [List.mem_append] at ha
      rcases ha with ha | ha
      · exact (memL a ha) ▸ hLR
      · exact hinnerRd a ha

set_option maxHeartbeats 1000000

/-- Every level of the `get_flanks` recursion returns flanks that are
sub-lists of the input path and pairwise disjoint. -/
theorem getFlanksFuel_subpartition (g : PathGraph) (fl : ℚ) (rr : Nat) :
    ∀ (fuel : Nat) (path : List Nat) (counter : Nat), path.Nodup →
      (∀ f ∈ getFlanksFuel g fl rr fuel path counter, f ⊆ path) ∧
      (getFlanksFuel g fl rr fuel path counter).Pairwise List.Disjoint := by
  intro fuel
  induction fuel with
  | zero => intro path counter _; simp [getFlanksFuel]
  | succ fuel ih =>
    intro path counter hnd
    simp only [getFlanksFuel]
    by_cases hguard : rr < counter + 1
    · rw [if_pos hguard]; simp
    · rw [if_neg hguard]
      by_cases hlen1 : path.length = 1
      · rw [if_pos hlen1]
        by_cases hsing : fl * (3/4 : ℚ) < (g.node (path.headD 0)).length ∨
            counter + 1 = 1
        · rw [if_pos hsing]
          constructor
          · intro f hf
            simp only [List.mem_singleton] at hf
            subst hf
            exact fun x hx => hx
          · simp
        · rw [if_neg hsing]; simp
      · rw [if_neg hlen1]
        by_cases hsmall : (path.map (fun x => (g.node x).length)).sum <
            2 * fl * (3/4 : ℚ)
        · rw [if_pos hsmall]
          by_cases hc1 : counter + 1 = 1
          · rw [if_pos hc1]
            constructor
            · intro f hf
              simp only [List.mem_cons, List.not_mem_nil, or_false,
                List.mem_singleton] at hf
              rcases hf with rfl | rfl
              · exact List.take_subset _ _
              · exact List.drop_subset _ _
            · refine List.Pairwise.cons ?_ (by simp)
              intro b hb
              simp only [List.mem_singleton] at hb
              subst hb
              exact List.disjoint_take_drop hnd le_rfl
          · rw [if_neg hc1]
            constructor
            · intro f hf
              simp only [List.mem_singleton] at hf
              subst hf
              exact fun x hx => hx
            · simp
        · rw [if_neg hsmall]
          obtain ⟨hL, hR, hLR⟩ :=
            splitLR_spec g (fl * (3/4 : ℚ)) (fl * (5/4 : ℚ)) path hnd
          set L := (splitLR g (fl * (3/4 : ℚ)) (fl * (5/4 : ℚ)) path).1
            with hLdef
          set R := (splitLR g (fl * (3/4 : ℚ)) (fl * (5/4 : ℚ)) path).2
            with hRdef
          set I0 := path.filter (fun x => decide (x ∉ L ++ R)) with hI0def
          have hI0sub : I0 ⊆ path := by
            rw [hI0def]; exact List.filter_subset' path
          have hI0nd : I0.Nodup := by
            rw [hI0def]; exact hnd.filter _
          have hI0mem : ∀ x ∈ I0, x ∉ L ++ R := by
            intro x hx
            rw [hI0def] at hx
            have := (List.mem_filter.mp hx).2
            simpa using this
          have hinner_sub : ∀ f ∈ (if I0.length ≠ 0 then
              getFlanksFuel g fl rr fuel I0 (counter + 1) else []), f ⊆ I0 := by
            split_ifs with h
            · exact (ih I0 (counter + 1) hI0nd).1
            · simp
          have hinner_pair : (if I0.length ≠ 0 then
              getFlanksFuel g fl rr fuel I0 (counter + 1)
              else []).Pairwise List.Disjoint := by
            split_ifs with h
            · exact (ih I0 (counter + 1) hI0nd).2
            · simp
          exact flanks_glue L R path _ hL hR hLR
            (fun f hf x hx => hI0sub (hinner_sub f hf hx))
            hinner_pair
            (fun f hf x hx hxL =>
              hI0mem x (hinner_sub f hf hx) (List.mem_append_left _ hxL))
            (fun f hf x hx hxR =>
              hI0mem x (hinner_sub f hf hx) (List.mem_append_right _ hxR))

/-- C2 amended: for every duplicate-free path, every target length, every
depth and every counter, the flank sub-paths returned by `get_flanks`
contain only indices of the input path and are pairwise disjoint — no index
appears in two flanks; but (per the counterexample) indices of the input
path can be missing from the output, so the returned flanks are a
sub-partition rather than a partition. -/
theorem c2_get_flanks_subpartition (g : PathGraph) (path : List Nat)
    (flank_length : ℚ) (rr counter : Nat) (hnd : path.Nodup) :
    (∀ f ∈ get_flanks g path flank_length rr counter, f ⊆ path) ∧
    (get_flanks g path flank_length rr counter).Pairwise List.Disjoint :=
  getFlanksFuel_subpartition g flank_length rr (rr + 1 - counter) path counter
    hnd

/-- C2 witness: the sub-partition facts at the counterexample input. -/
theorem c2_get_flanks_subpartition_witness :
    (∀ f ∈ get_flanks gB [0, 1, 2, 3, 4] 20 30 0, f ⊆ [0, 1, 2, 3, 4]) ∧
    (get_flanks gB [0, 1, 2, 3, 4] 20 30 0).Pairwise List.Disjoint :=
  c2_get_flanks_subpartition gB [0, 1, 2, 3, 4] 20 30 0 (by decide)
